import Mathlib

set_option autoImplicit false
set_option maxRecDepth 8000

namespace Restaurant

/-! # Shallow embedding of the Master Scheduler core (src/scheduler.py, src/database.py)

Python strings are modelled as `List Char`; Python floats as `ℚ` (the shift
arithmetic only adds, subtracts, multiplies and divides, so rational values
model the intended real-number behaviour of the float code exactly).
Each definition is annotated with the source lines it embeds. -/

/-! ## Python string primitives used by the parser -/

/-- Characters removed by Python str.strip(): space, tab, newline, carriage
return, vertical tab, form feed. -/
def pyWhitespace (c : Char) : Bool :=
  c.toNat == 32 || c.toNat == 9 || c.toNat == 10 || c.toNat == 13 ||
  c.toNat == 11 || c.toNat == 12

/-- Model of Python str.strip(): drop whitespace from both ends. -/
def pyStrip (l : List Char) : List Char :=
  ((l.dropWhile pyWhitespace).reverse.dropWhile pyWhitespace).reverse

/-- Model of Python str.lower() on the ASCII range used by shift strings. -/
def pyLower (l : List Char) : List Char := l.map Char.toLower

/-- Model of Python substring test `ab in s` for a two-character pattern. -/
def containsSub2 (a b : Char) : List Char → Bool
  | [] => false
  | [_] => false
  | c :: d :: rest => (c == a && d == b) || containsSub2 a b (d :: rest)

/-- Model of Python `s.replace(ab, "")` for a two-character pattern: remove
every non-overlapping occurrence, scanning left to right. -/
def removeSub2 (a b : Char) : List Char → List Char
  | [] => []
  | [c] => [c]
  | c :: d :: rest =>
    if c == a && d == b then removeSub2 a b rest
    else c :: removeSub2 a b (d :: rest)

/-- Auxiliary for `splitOnChar`; accumulates the current piece reversed. -/
def splitOnCharAux (sep : Char) : List Char → List Char → List (List Char)
  | [], acc => [acc.reverse]
  | x :: rest, acc =>
    if x == sep then acc.reverse :: splitOnCharAux sep rest []
    else splitOnCharAux sep rest (x :: acc)

/-- Model of Python s.split(sep) for a one-character separator: splits at every
occurrence, so a string with no separator yields one piece and a string with k
separators yields k+1 pieces (empty pieces included). -/
def splitOnChar (sep : Char) (l : List Char) : List (List Char) :=
  splitOnCharAux sep l []

/-- Numeric value of a list of decimal digit characters. -/
def natOfDigits (l : List Char) : ℕ :=
  l.foldl (fun n c => 10 * n + (c.toNat - 48)) 0

/-- Model of Python float() on the decimal literals that occur in shift
strings: optional surrounding whitespace, an optional sign, then digits with at
most one decimal point and at least one digit. Any other token raises
ValueError in Python, modelled as none. (Exotic float syntax such as
exponents, inf or underscores never occurs in shift tokens.) -/
def pyFloat (s : List Char) : Option ℚ :=
  let t := pyStrip s
  let signed : ℚ × List Char :=
    match t with
    | c :: rest =>
      if c == '-' then (-1, rest)
      else if c == '+' then (1, rest)
      else (1, t)
    | [] => (1, t)
  match splitOnChar '.' signed.2 with
  | [ip] =>
    if !ip.isEmpty && ip.all Char.isDigit then
      some (signed.1 * natOfDigits ip)
    else none
  | [ip, fp] =>
    if (!ip.isEmpty || !fp.isEmpty) && ip.all Char.isDigit && fp.all Char.isDigit then
      some (signed.1 * ((natOfDigits ip : ℚ) + (natOfDigits fp : ℚ) / (10 : ℚ) ^ fp.length))
    else none
  | _ => none

/-! ## The shift parser (src/scheduler.py lines 32-83) -/

/-- src/scheduler.py lines 42-60, the inner parse_time: strip the token, map an
am token V to V (12 to 0), a pm token V to V+12 (12 to 12), and a bare token V
to V+12 when V < 5, V when 5 <= V < 12, V when 12 <= V. none models a
ValueError raised by float(), caught by the enclosing except. -/
def parse_time (time_str : List Char) : Option ℚ :=
  let t := pyStrip time_str
  if containsSub2 'a' 'm' (pyLower t) then
    match pyFloat (removeSub2 'a' 'm' (pyLower t)) with
    | none => none
    | some v => some (if v ≠ 12 then v else 0)
  else if containsSub2 'p' 'm' (pyLower t) then
    match pyFloat (removeSub2 'p' 'm' (pyLower t)) with
    | none => none
    | some v => some (if v ≠ 12 then v + 12 else 12)
  else
    match pyFloat t with
    | none => none
    | some v => some (if v < 12 then (if 5 ≤ v then v else v + 12) else v)

/-- Python int() applied to a float: truncation toward zero. -/
def pyInt (q : ℚ) : ℤ := if 0 ≤ q then ⌊q⌋ else ⌈q⌉

/-- Python float modulo: the result takes the sign of the divisor. -/
def pyMod (q m : ℚ) : ℚ := q - m * ⌊q / m⌋

/-- Python f-string formatting f"{n:02d}": decimal digits padded with a zero
to width two (the sign counts toward the width). -/
def fmt02 (n : ℤ) : List Char :=
  if n < 0 then '-' :: Nat.toDigits 10 (-n).toNat
  else if n < 10 then '0' :: Nat.toDigits 10 n.toNat
  else Nat.toDigits 10 n.toNat

/-- Result of parse_shift_hours: the returned triple plus a flag recording
whether the except branch fired st.warning (a non-fatal warning). -/
structure ParsedShift where
  start_time : Option (List Char)
  end_time : Option (List Char)
  hours : ℚ
  warned : Bool
  deriving DecidableEq

/-- The closed-day marker string "CLOSED". -/
def CLOSED : List Char := ['C', 'L', 'O', 'S', 'E', 'D']

/-- The ":00:00" suffix appended to formatted hours. -/
def hms : List Char := [':', '0', '0', ':', '0', '0']

/-- The body of the try block given the pieces split on the dash: exactly two
pieces are unpacked and parsed (src lines 39, 62-76); any other piece count is
the unpacking ValueError, and a token float() rejects is the parse ValueError,
both caught at line 81 (zero shift, warning). -/
def shiftFromTokens : List (List Char) → ParsedShift
  | [start_str, end_str] =>
    match parse_time start_str, parse_time end_str with
    | some start_hour, some end_hour0 =>
      let end_hour := if end_hour0 ≤ start_hour then end_hour0 + 24 else end_hour0
      ⟨some (fmt02 (pyInt start_hour) ++ hms),
       some (fmt02 (pyInt (pyMod end_hour 24)) ++ hms),
       end_hour - start_hour, false⟩
    | _, _ => ⟨none, none, 0, true⟩
  | _ => ⟨none, none, 0, true⟩

/-- src/scheduler.py lines 32-83, parse_shift_hours: empty or CLOSED input
yields the zero shift; input without a dash yields the zero shift (line 79);
otherwise the string is split on the dash and handed to the try block body. -/
def parse_shift_hours (shift_str : List Char) : ParsedShift :=
  if shift_str = [] ∨ shift_str = CLOSED then ⟨none, none, 0, false⟩
  else if shift_str.contains '-' then shiftFromTokens (splitOnChar '-' shift_str)
  else ⟨none, none, 0, false⟩

/-! ## The labor cost allocator (src/scheduler.py lines 278-454)

One calculation pass processes a shared list of week days (date and
closed flag, src lines 113-115) and, per employee, that employee's row of
shift strings. Dates are modelled as natural numbers (days are consecutive
calendar dates, so their order is the numeric order). -/

/-- Employee pay data (pay_type, pay_rate from the employees table). -/
inductive PayType
  | Hourly
  | Salaried
  deriving DecidableEq

/-- One cell of an employee's schedule row: the date, whether the restaurant
is closed that day, and the shift string entered for the employee. -/
structure DayCell where
  date : ℕ
  closed : Bool
  shift : List Char
  deriving DecidableEq

/-- The guard used throughout calculate_labor_costs (src lines 307, 377, 403,
415): the day is not closed and the cell holds a nonempty string other than
"CLOSED". -/
def cellScheduled (c : DayCell) : Bool :=
  !c.closed && !c.shift.isEmpty && !(c.shift == CLOSED)

/-- State built by the first pass (src lines 296-313): accumulated weekly
hours, the (date, hours) list of nonzero-duration shifts in day order, and the
Python loop variables start_time / end_time as they remain after the pass
(they are reassigned on every scheduled cell, even when its parsed duration is
zero, and retain the value from the last scheduled cell). Before any
assignment they are modelled as none; the branches below only read them after
at least one assignment has happened. -/
structure FirstPass where
  weekly_hours : ℚ
  weekly_shifts : List (ℕ × ℚ)
  last_start : Option (List Char)
  last_end : Option (List Char)
  deriving DecidableEq

/-- One iteration of the first pass (src lines 300-313). -/
def firstPassStep (st : FirstPass) (c : DayCell) : FirstPass :=
  if c.closed then st
  else if !c.shift.isEmpty && !(c.shift == CLOSED) then
    let p := parse_shift_hours c.shift
    if 0 < p.hours then
      ⟨st.weekly_hours + p.hours, st.weekly_shifts ++ [(c.date, p.hours)],
       p.start_time, p.end_time⟩
    else ⟨st.weekly_hours, st.weekly_shifts, p.start_time, p.end_time⟩
  else st

/-- The first pass over one employee's week (src lines 296-313). -/
def firstPass (week : List DayCell) : FirstPass :=
  week.foldl firstPassStep ⟨0, [], none, none⟩

/-- Regular/overtime split of one shift produced by the overtime loop. -/
structure Alloc where
  date : ℕ
  hours : ℚ
  reg : ℚ
  ot : ℚ
  deriving DecidableEq

/-- src lines 330-345: walk the (already date-sorted) shifts, consuming the
remaining regular-hour budget: a shift fitting in the positive remaining
budget is fully regular, a larger one is split and zeroes the budget, and with
no budget left the whole shift is overtime. -/
def assignHours : List (ℕ × ℚ) → ℚ → List Alloc
  | [], _ => []
  | (d, h) :: rest, regRem =>
    if 0 < regRem then
      if h ≤ regRem then ⟨d, h, h, 0⟩ :: assignHours rest (regRem - h)
      else ⟨d, h, regRem, h - regRem⟩ :: assignHours rest 0
    else ⟨d, h, 0, h⟩ :: assignHours rest regRem

/-- src lines 347-350: regular portion at pay_rate, overtime portion at
pay_rate * 1.5. -/
def allocCost (rate : ℚ) (a : Alloc) : ℚ := a.reg * rate + a.ot * rate * 1.5

/-- A row saved through db.save_schedule during cost calculation (employee id
is added where rows of several employees are combined). -/
structure ShiftCost where
  date : ℕ
  start_time : Option (List Char)
  end_time : Option (List Char)
  hours : ℚ
  cost : ℚ
  overtime : Bool
  deriving DecidableEq

/-- One update to the daily_labor dictionary (src lines 352-356, 384-387,
418-421): the date and the amounts added to total_hours, regular_hours,
overtime_hours and total_cost. -/
structure Delta where
  date : ℕ
  dHours : ℚ
  dReg : ℚ
  dOt : ℚ
  dCost : ℚ
  deriving DecidableEq

/-- The overtime branch (src lines 318-367): weekly_shifts is sorted by date,
hours are assigned against the 40-hour budget, and every saved row reuses the
start_time / end_time left over from the first pass. -/
def otOutputs (rate : ℚ) (fp : FirstPass) : List (ShiftCost × Delta) :=
  (assignHours (List.insertionSort (fun a b => a.1 ≤ b.1) fp.weekly_shifts) 40).map fun a =>
    (⟨a.date, fp.last_start, fp.last_end, a.hours, allocCost rate a, decide (0 < a.ot)⟩,
     ⟨a.date, a.hours, a.reg, a.ot, allocCost rate a⟩)

/-- The no-overtime hourly branch (src lines 368-398): re-walk the week,
re-parse each scheduled cell, and save each nonzero-duration shift entirely as
regular time at hours * pay_rate. -/
def noOtOutputs (rate : ℚ) (week : List DayCell) : List (ShiftCost × Delta) :=
  week.filterMap fun c =>
    if c.closed then none
    else if !c.shift.isEmpty && !(c.shift == CLOSED) then
      let p := parse_shift_hours c.shift
      if 0 < p.hours then
        some (⟨c.date, p.start_time, p.end_time, p.hours, p.hours * rate, false⟩,
              ⟨c.date, p.hours, p.hours, 0, p.hours * rate⟩)
      else none
    else none

/-- src lines 402-403: the number of scheduled (non-closed, nonempty,
non-CLOSED) cells in the employee's row, with no condition on the parsed
duration. -/
def working_days (week : List DayCell) : ℕ :=
  (week.filter cellScheduled).length

/-- The salaried branch body (src lines 405-432): every scheduled cell is
charged the same daily_salary; its parsed hours go to total and regular hours
(reporting only). -/
def salariedOutputs (daily_salary : ℚ) (week : List DayCell) : List (ShiftCost × Delta) :=
  week.filterMap fun c =>
    if c.closed then none
    else if !c.shift.isEmpty && !(c.shift == CLOSED) then
      let p := parse_shift_hours c.shift
      some (⟨c.date, p.start_time, p.end_time, p.hours, daily_salary, false⟩,
            ⟨c.date, p.hours, p.hours, 0, daily_salary⟩)
    else none

/-- Processing of one employee row (src lines 288-432): the saved shift cost
rows paired with the daily_labor updates, in program order. -/
def employeeOutputs (pt : PayType) (rate : ℚ) (week : List DayCell) :
    List (ShiftCost × Delta) :=
  match pt with
  | .Hourly =>
    let fp := firstPass week
    if 40 < fp.weekly_hours then otOutputs rate fp else noOtOutputs rate week
  | .Salaried =>
    let wd := working_days week
    if 0 < wd then salariedOutputs (rate / (wd : ℚ)) week else []

/-- Daily aggregate kept in the daily_labor dictionary (src lines 284-285);
the dictionary over the 7 dates is modelled as a total function from dates,
zero outside the processed week. -/
structure Daily where
  total_hours : ℚ
  regular_hours : ℚ
  overtime_hours : ℚ
  total_cost : ℚ
  deriving DecidableEq

/-- The all-zero daily aggregate (src line 284). -/
def zeroDaily : Daily := ⟨0, 0, 0, 0⟩

/-- Apply one daily_labor update at its date. -/
def applyDelta (m : ℕ → Daily) (e : Delta) : ℕ → Daily :=
  fun d =>
    if d = e.date then
      ⟨(m d).total_hours + e.dHours, (m d).regular_hours + e.dReg,
       (m d).overtime_hours + e.dOt, (m d).total_cost + e.dCost⟩
    else m d

/-- Employee pay data for one schedule row. -/
structure Employee where
  id : ℕ
  pay_type : PayType
  pay_rate : ℚ
  deriving DecidableEq

/-- Builds one employee's week from the shared day list and the employee's
row of shift strings (the schedule editor columns, src lines 113-115, 300). -/
def mkWeek (days : List (ℕ × Bool)) (shifts : List (List Char)) : List DayCell :=
  List.zipWith (fun dc s => ⟨dc.1, dc.2, s⟩) days shifts

/-- All daily_labor updates of one calculation pass, in program order
(employees outer, days inner). -/
def allDeltas (days : List (ℕ × Bool)) (staff : List (Employee × List (List Char))) :
    List Delta :=
  staff.flatMap fun es =>
    (employeeOutputs es.1.pay_type es.1.pay_rate (mkWeek days es.2)).map Prod.snd

/-- The daily_labor dictionary at the end of one calculation pass. -/
def dailyLabor (days : List (ℕ × Bool)) (staff : List (Employee × List (List Char))) :
    ℕ → Daily :=
  (allDeltas days staff).foldl applyDelta (fun _ => zeroDaily)

/-- src line 443: required sales from a daily total cost; non-positive goal
percentages give 0 instead of dividing by zero. -/
def requiredSalesCalc (total_cost pct : ℚ) : ℚ :=
  if 0 < pct then total_cost / (pct / 100) else 0

/-- A row saved through db.save_labor_cost (src lines 446-454). -/
structure LaborRow where
  date : ℕ
  total_hours : ℚ
  regular_hours : ℚ
  overtime_hours : ℚ
  total_cost : ℚ
  labor_goal_percentage : ℚ
  required_sales : ℚ
  deriving DecidableEq

/-- src lines 437-454: one labor cost row per processed date, skipping dates
whose total cost is zero. -/
def laborRows (days : List (ℕ × Bool)) (m : ℕ → Daily) (pct : ℚ) : List LaborRow :=
  days.filterMap fun dc =>
    if (m dc.1).total_cost = 0 then none
    else
      some ⟨dc.1, (m dc.1).total_hours, (m dc.1).regular_hours,
            (m dc.1).overtime_hours, (m dc.1).total_cost, pct,
            requiredSalesCalc (m dc.1).total_cost pct⟩

/-! ## The persistence layer (src/database.py lines 196-224 and 280-311)

Both save_schedule and save_labor_cost first SELECT an existing row by key
(employee_id and date, or date alone), UPDATE it in place when found and
INSERT a new row otherwise. Tables are modelled as lists of key-value rows in
insertion order. -/

/-- Replace the payload of the first row holding the given key. -/
def replaceFirst {α β : Type} [DecidableEq α] : List (α × β) → α → β → List (α × β)
  | [], _, _ => []
  | r :: rest, k, v => if r.1 = k then (k, v) :: rest else r :: replaceFirst rest k v

/-- The SELECT-then-UPDATE-or-INSERT pattern of save_schedule
(src/database.py lines 196-224) and save_labor_cost (lines 280-311). -/
def upsertRow {α β : Type} [DecidableEq α] (db : List (α × β)) (k : α) (v : β) :
    List (α × β) :=
  if db.any fun r => r.1 = k then replaceFirst db k v else db ++ [(k, v)]

/-- Apply a list of saves to a table in order. -/
def applySaves {α β : Type} [DecidableEq α] (db : List (α × β)) (es : List (α × β)) :
    List (α × β) :=
  es.foldl (fun d e => upsertRow d e.1 e.2) db

/-- All db.save_schedule rows of one calculation pass, keyed by
(employee_id, date) as in src/database.py lines 202-206. -/
def allSaves (days : List (ℕ × Bool)) (staff : List (Employee × List (List Char))) :
    List ((ℕ × ℕ) × ShiftCost) :=
  staff.flatMap fun es =>
    (employeeOutputs es.1.pay_type es.1.pay_rate (mkWeek days es.2)).map fun o =>
      ((es.1.id, o.1.date), o.1)

/-- All db.save_labor_cost rows of one calculation pass, keyed by date as in
src/database.py lines 286-287. -/
def allLaborSaves (days : List (ℕ × Bool)) (staff : List (Employee × List (List Char)))
    (pct : ℚ) : List (ℕ × LaborRow) :=
  (laborRows days (dailyLabor days staff) pct).map fun r => (r.date, r)

/-! ## Characterization of the first pass -/

/-- The (date, hours) pairs the first pass collects: one pair per scheduled
cell whose parsed duration is positive. -/
def shiftsOf (week : List DayCell) : List (ℕ × ℚ) :=
  week.filterMap fun c =>
    if cellScheduled c && decide (0 < (parse_shift_hours c.shift).hours) then
      some (c.date, (parse_shift_hours c.shift).hours)
    else none

/-- Hours of the shifts strictly before position i (specification helper for
the closed form of the overtime loop). -/
def prefixHours (shifts : List (ℕ × ℚ)) (i : ℕ) : ℚ :=
  ((shifts.take i).map fun s => s.2).sum

/-- A concrete 5-day week, all days open. -/
def demoDays : List (ℕ × Bool) := [(0, false), (1, false), (2, false), (3, false), (4, false)]

/-- A ten-hour shift string. -/
def tenShift : List Char := ("9am-7pm").data

/-- Five ten-hour days for one employee. -/
def demoWeek : List DayCell :=
  mkWeek demoDays [tenShift, tenShift, tenShift, tenShift, tenShift]

/-- Five ten-hour days with a distinct last shift string. -/
def demoWeekStale : List DayCell :=
  mkWeek demoDays [tenShift, tenShift, tenShift, tenShift, ("7am-5pm").data]

/-- The invariant C10 states for the daily_labor dictionary. -/
def DailyInv (m : ℕ → Daily) : Prop :=
  ∀ d, (m d).total_hours = (m d).regular_hours + (m d).overtime_hours

/-- A one-employee staffing used by the concrete witnesses. -/
def demoStaff : List (Employee × List (List Char)) :=
  [(⟨1, .Hourly, 10⟩, [tenShift, tenShift, tenShift, tenShift, tenShift])]

theorem foldl_firstPassStep_shifts (week : List DayCell) (st : FirstPass) :
    (week.foldl firstPassStep st).weekly_shifts = st.weekly_shifts ++ shiftsOf week := by
  induction week generalizing st with
  | nil => simp [shiftsOf]
  | cons c rest ih =>
    simp only [List.foldl_cons, shiftsOf, List.filterMap_cons]
    by_cases hc : c.closed
    · simp [firstPassStep, hc, cellScheduled, ih, shiftsOf]
    · by_cases hg : (!c.shift.isEmpty && !(c.shift == CLOSED)) = true
      · by_cases hp : 0 < (parse_shift_hours c.shift).hours
        · simp [firstPassStep, hc, hg, hp, cellScheduled, ih, shiftsOf]
        · simp [firstPassStep, hc, hg, hp, cellScheduled, ih, shiftsOf]
      · simp [firstPassStep, hc, hg, cellScheduled, ih, shiftsOf]

theorem foldl_firstPassStep_hours (week : List DayCell) (st : FirstPass) :
    (week.foldl firstPassStep st).weekly_hours =
      st.weekly_hours + ((shiftsOf week).map fun s => s.2).sum := by
  induction week generalizing st with
  | nil => simp [shiftsOf]
  | cons c rest ih =>
    simp only [List.foldl_cons, shiftsOf, List.filterMap_cons]
    by_cases hc : c.closed
    · simp [firstPassStep, hc, cellScheduled, ih, shiftsOf]
    · by_cases hg : (!c.shift.isEmpty && !(c.shift == CLOSED)) = true
      · by_cases hp : 0 < (parse_shift_hours c.shift).hours
        · simp [firstPassStep, hc, hg, hp, cellScheduled, ih, shiftsOf]
          ring
        · simp [firstPassStep, hc, hg, hp, cellScheduled, ih, shiftsOf]
      · simp [firstPassStep, hc, hg, cellScheduled, ih, shiftsOf]

theorem firstPass_shifts (week : List DayCell) :
    (firstPass week).weekly_shifts = shiftsOf week := by
  simpa using foldl_firstPassStep_shifts week ⟨0, [], none, none⟩

theorem firstPass_hours (week : List DayCell) :
    (firstPass week).weekly_hours = ((shiftsOf week).map fun s => s.2).sum := by
  simpa using foldl_firstPassStep_hours week ⟨0, [], none, none⟩

theorem shiftsOf_pos (week : List DayCell) :
    ∀ s ∈ shiftsOf week, 0 < s.2 := by
  intro s hs
  simp only [shiftsOf, List.mem_filterMap] at hs
  obtain ⟨c, _, hc⟩ := hs
  by_cases h : (cellScheduled c && decide (0 < (parse_shift_hours c.shift).hours)) = true
  · rw [if_pos h] at hc
    obtain rfl := Option.some.inj hc
    simp only [Bool.and_eq_true] at h
    exact of_decide_eq_true h.2
  · rw [if_neg h] at hc
    exact absurd hc (Option.noConfusion)

theorem cellScheduled_eq_true {c : DayCell} :
    cellScheduled c = true ↔ c.closed = false ∧ c.shift ≠ [] ∧ c.shift ≠ CLOSED := by
  simp [cellScheduled, and_assoc]

theorem firstPassStep_scheduled (st : FirstPass) (c : DayCell)
    (h : cellScheduled c = true) :
    firstPassStep st c =
      if 0 < (parse_shift_hours c.shift).hours then
        ⟨st.weekly_hours + (parse_shift_hours c.shift).hours,
         st.weekly_shifts ++ [(c.date, (parse_shift_hours c.shift).hours)],
         (parse_shift_hours c.shift).start_time, (parse_shift_hours c.shift).end_time⟩
      else
        ⟨st.weekly_hours, st.weekly_shifts, (parse_shift_hours c.shift).start_time,
         (parse_shift_hours c.shift).end_time⟩ := by
  obtain ⟨h1, h2, h3⟩ := cellScheduled_eq_true.mp h
  have h2b : c.shift.isEmpty = false := by simpa using h2
  have h3b : (c.shift == CLOSED) = false := by simpa using h3
  simp [firstPassStep, h1, h2b, h3b]

theorem firstPassStep_not_scheduled (st : FirstPass) (c : DayCell)
    (h : cellScheduled c = false) : firstPassStep st c = st := by
  simp only [firstPassStep]
  by_cases hc : c.closed
  · simp [hc]
  · have hc0 : c.closed = false := by simpa using hc
    have hgu : (!c.shift.isEmpty && !(c.shift == CLOSED)) = false := by
      simpa [cellScheduled, hc0] using h
    simp [hc0, hgu]

/-- The loop variables start_time / end_time after the first pass hold the
parse of the last scheduled cell. -/
theorem foldl_firstPassStep_last (week : List DayCell) (st : FirstPass) :
    ((week.foldl firstPassStep st).last_start, (week.foldl firstPassStep st).last_end) =
      (match (week.filter cellScheduled).getLast? with
       | some c => ((parse_shift_hours c.shift).start_time, (parse_shift_hours c.shift).end_time)
       | none => (st.last_start, st.last_end)) := by
  induction week using List.reverseRecOn generalizing st with
  | nil => simp
  | append_singleton ws c ih =>
    rw [List.foldl_append, List.filter_append]
    by_cases hs : cellScheduled c = true
    · have hcons : List.filter cellScheduled [c] = [c] := by simp [hs]
      rw [List.foldl_cons, List.foldl_nil, firstPassStep_scheduled _ c hs,
        hcons, List.getLast?_concat]
      by_cases hp : 0 < (parse_shift_hours c.shift).hours
      · simp [hp]
      · simp [hp]
    · rw [List.foldl_cons, List.foldl_nil,
        firstPassStep_not_scheduled _ c (by simpa using hs)]
      simp only [List.filter_cons, hs, List.filter_nil, List.append_nil]
      simpa using ih st

/-! ## Properties of the overtime assignment loop -/

theorem assignHours_length (shifts : List (ℕ × ℚ)) (b : ℚ) :
    (assignHours shifts b).length = shifts.length := by
  induction shifts generalizing b with
  | nil => rfl
  | cons s rest ih =>
    obtain ⟨d, h⟩ := s
    simp only [assignHours]
    by_cases hb : 0 < b
    · by_cases hle : h ≤ b
      · simp [hb, hle, ih]
      · simp [hb, hle, ih]
    · simp [hb, ih]

theorem assignHours_reg_add_ot (shifts : List (ℕ × ℚ)) (b : ℚ) :
    ∀ a ∈ assignHours shifts b, a.reg + a.ot = a.hours := by
  induction shifts generalizing b with
  | nil => simp [assignHours]
  | cons s rest ih =>
    obtain ⟨d, h⟩ := s
    intro a ha
    simp only [assignHours] at ha
    by_cases hb : 0 < b
    · by_cases hle : h ≤ b
      · rw [if_pos hb, if_pos hle, List.mem_cons] at ha
        rcases ha with rfl | ha
        · simp
        · exact ih _ a ha
      · rw [if_pos hb, if_neg hle, List.mem_cons] at ha
        rcases ha with rfl | ha
        · simp
        · exact ih _ a ha
    · rw [if_neg hb, List.mem_cons] at ha
      rcases ha with rfl | ha
      · simp
      · exact ih _ a ha

theorem assignHours_map_date_hours (shifts : List (ℕ × ℚ)) (b : ℚ) :
    (assignHours shifts b).map (fun a => (a.date, a.hours)) = shifts := by
  induction shifts generalizing b with
  | nil => rfl
  | cons s rest ih =>
    obtain ⟨d, h⟩ := s
    simp only [assignHours]
    by_cases hb : 0 < b
    · by_cases hle : h ≤ b
      · simp [hb, hle, ih]
      · simp [hb, hle, ih]
    · simp [hb, ih]

theorem assignHours_reg_sum (shifts : List (ℕ × ℚ)) (b : ℚ) (hb : 0 ≤ b)
    (hpos : ∀ s ∈ shifts, 0 ≤ s.2) :
    ((assignHours shifts b).map fun a => a.reg).sum =
      min ((shifts.map fun s => s.2).sum) b := by
  induction shifts generalizing b with
  | nil => simp [assignHours, min_eq_left hb]
  | cons s rest ih =>
    obtain ⟨d, h⟩ := s
    have h0 : 0 ≤ h := hpos (d, h) (by simp)
    have hrest : ∀ s ∈ rest, 0 ≤ s.2 := fun s hs => hpos s (by simp [hs])
    have hS : 0 ≤ (rest.map fun s => s.2).sum :=
      List.sum_nonneg (by
        intro x hx
        obtain ⟨s, hs, rfl⟩ := List.mem_map.mp hx
        exact hrest s hs)
    simp only [assignHours]
    by_cases hb1 : 0 < b
    · by_cases hle : h ≤ b
      · rw [if_pos hb1, if_pos hle]
        simp only [List.map_cons, List.sum_cons]
        rw [ih (b - h) (by linarith) hrest]
        rw [← min_add_add_left h ((rest.map fun s => s.2).sum) (b - h)]
        have hbh : h + (b - h) = b := by ring
        rw [hbh]
      · rw [if_pos hb1, if_neg hle]
        simp only [List.map_cons, List.sum_cons]
        rw [ih 0 le_rfl hrest]
        rw [min_eq_right hS, min_eq_right (by linarith : b ≤ h + (rest.map fun s => s.2).sum)]
        ring
    · have hb0 : b = 0 := le_antisymm (not_lt.mp hb1) hb
      subst hb0
      rw [if_neg hb1]
      simp only [List.map_cons, List.sum_cons]
      rw [ih 0 le_rfl hrest]
      rw [min_eq_right hS, min_eq_right (by linarith : (0 : ℚ) ≤ h + (rest.map fun s => s.2).sum)]
      ring

theorem assignHours_sum_split (shifts : List (ℕ × ℚ)) (b : ℚ) :
    ((assignHours shifts b).map fun a => a.reg).sum +
      ((assignHours shifts b).map fun a => a.ot).sum = (shifts.map fun s => s.2).sum := by
  induction shifts generalizing b with
  | nil => simp [assignHours]
  | cons s rest ih =>
    obtain ⟨d, h⟩ := s
    simp only [assignHours]
    by_cases hb : 0 < b
    · by_cases hle : h ≤ b
      · rw [if_pos hb, if_pos hle]
        simp only [List.map_cons, List.sum_cons]
        have := ih (b - h)
        linarith
      · rw [if_pos hb, if_neg hle]
        simp only [List.map_cons, List.sum_cons]
        have := ih 0
        linarith
    · rw [if_neg hb]
      simp only [List.map_cons, List.sum_cons]
      have := ih b
      linarith

theorem prefixHours_nonneg (shifts : List (ℕ × ℚ))
    (hpos : ∀ s ∈ shifts, 0 ≤ s.2) (i : ℕ) : 0 ≤ prefixHours shifts i := by
  refine List.sum_nonneg ?_
  intro x hx
  obtain ⟨s, hs, rfl⟩ := List.mem_map.mp hx
  exact hpos s (List.mem_of_mem_take hs)

/-- Closed form of the overtime loop: starting from budget b, the regular
portion of the i-th shift is the part of its hours that fits in what remains
of the budget after the earlier shifts, and the rest is overtime. -/
theorem assignHours_getElem (shifts : List (ℕ × ℚ)) (b : ℚ) (hb : 0 ≤ b)
    (hpos : ∀ s ∈ shifts, 0 ≤ s.2) (i : ℕ) (d : ℕ) (h : ℚ)
    (hi : shifts[i]? = some (d, h)) :
    (assignHours shifts b)[i]? =
      some ⟨d, h, min h (max (b - prefixHours shifts i) 0),
            h - min h (max (b - prefixHours shifts i) 0)⟩ := by
  induction shifts generalizing b i with
  | nil => simp at hi
  | cons s rest ih =>
    obtain ⟨d0, h0⟩ := s
    have h00 : 0 ≤ h0 := hpos (d0, h0) (by simp)
    have hrest : ∀ s ∈ rest, 0 ≤ s.2 := fun s hs => hpos s (by simp [hs])
    cases i with
    | zero =>
      simp only [List.getElem?_cons_zero] at hi
      obtain ⟨rfl, rfl⟩ := Prod.mk.inj (Option.some.inj hi)
      have hpre : prefixHours ((d0, h0) :: rest) 0 = 0 := by simp [prefixHours]
      rw [hpre, sub_zero, max_eq_left hb]
      simp only [assignHours]
      by_cases hb1 : 0 < b
      · by_cases hle : h0 ≤ b
        · rw [if_pos hb1, if_pos hle, List.getElem?_cons_zero]
          rw [min_eq_left hle]
          simp
        · rw [if_pos hb1, if_neg hle, List.getElem?_cons_zero]
          rw [min_eq_right (le_of_lt (not_le.mp hle))]
      · have hb0 : b = 0 := le_antisymm (not_lt.mp hb1) hb
        subst hb0
        rw [if_neg hb1, List.getElem?_cons_zero]
        rw [min_eq_right h00]
        simp
    | succ j =>
      simp only [List.getElem?_cons_succ] at hi
      have hpre : prefixHours ((d0, h0) :: rest) (j + 1) = h0 + prefixHours rest j := by
        simp [prefixHours]
      have hP : 0 ≤ prefixHours rest j := prefixHours_nonneg rest hrest j
      simp only [assignHours]
      by_cases hb1 : 0 < b
      · by_cases hle : h0 ≤ b
        · rw [if_pos hb1, if_pos hle, List.getElem?_cons_succ]
          rw [ih (b - h0) (by linarith) hrest j hi]
          rw [hpre]
          ring_nf
        · rw [if_pos hb1, if_neg hle, List.getElem?_cons_succ]
          rw [ih 0 le_rfl hrest j hi]
          rw [hpre]
          have hx : max (b - (h0 + prefixHours rest j)) 0 = 0 :=
            max_eq_right (by linarith [not_le.mp hle])
          have hy : max (0 - prefixHours rest j) 0 = 0 := max_eq_right (by linarith)
          rw [hx, hy]
      · have hb0 : b = 0 := le_antisymm (not_lt.mp hb1) hb
        subst hb0
        rw [if_neg hb1, List.getElem?_cons_succ]
        rw [ih 0 le_rfl hrest j hi]
        rw [hpre]
        have hx : max (0 - (h0 + prefixHours rest j)) 0 = 0 :=
          max_eq_right (by linarith)
        have hy : max (0 - prefixHours rest j) 0 = 0 := max_eq_right (by linarith)
        rw [hx, hy]

/-! ## Characterization of the no-overtime and salaried branches -/

theorem filterMap_ext {α β : Type} (f g : α → Option β) (l : List α)
    (h : ∀ a, f a = g a) : l.filterMap f = l.filterMap g := by
  induction l with
  | nil => rfl
  | cons a rest ih => simp only [List.filterMap_cons, h a, ih]

theorem scheduled_split {c : DayCell} (h : cellScheduled c = true) :
    c.closed = false ∧ (!c.shift.isEmpty && !(c.shift == CLOSED)) = true := by
  obtain ⟨h1, h2, h3⟩ := cellScheduled_eq_true.mp h
  refine ⟨h1, ?_⟩
  have h2b : c.shift.isEmpty = false := by simpa using h2
  have h3b : (c.shift == CLOSED) = false := by simpa using h3
  simp [h2b, h3b]

theorem not_scheduled_split {c : DayCell} (h : cellScheduled c = false) :
    c.closed = true ∨
      (c.closed = false ∧ (!c.shift.isEmpty && !(c.shift == CLOSED)) = false) := by
  by_cases hc : c.closed
  · exact Or.inl hc
  · have hc0 : c.closed = false := by simpa using hc
    refine Or.inr ⟨hc0, ?_⟩
    simpa [cellScheduled, hc0] using h

theorem noOtOutputs_deltas (rate : ℚ) (week : List DayCell) :
    (noOtOutputs rate week).map (fun o => o.2) =
      (shiftsOf week).map fun s => ⟨s.1, s.2, s.2, 0, s.2 * rate⟩ := by
  unfold noOtOutputs shiftsOf
  rw [List.map_filterMap, List.map_filterMap]
  refine filterMap_ext _ _ week fun c => ?_
  by_cases hsch : cellScheduled c = true
  · obtain ⟨h1, h2⟩ := scheduled_split hsch
    by_cases hp : 0 < (parse_shift_hours c.shift).hours
    · simp [h1, h2, hp, hsch]
    · simp [h1, h2, hp, hsch]
  · have hs0 : cellScheduled c = false := by simpa using hsch
    rcases not_scheduled_split hs0 with h | ⟨h1, h2⟩
    · simp [h, hs0]
    · simp [h1, h2, hs0]

theorem salariedOutputs_eq_map (s : ℚ) (week : List DayCell) :
    salariedOutputs s week = (week.filter cellScheduled).map fun c =>
      (⟨c.date, (parse_shift_hours c.shift).start_time, (parse_shift_hours c.shift).end_time,
        (parse_shift_hours c.shift).hours, s, false⟩,
       ⟨c.date, (parse_shift_hours c.shift).hours, (parse_shift_hours c.shift).hours, 0, s⟩) := by
  induction week with
  | nil => rfl
  | cons c rest ih =>
    rw [salariedOutputs, List.filterMap_cons, List.filter_cons]
    by_cases hsch : cellScheduled c = true
    · obtain ⟨h1, h2⟩ := scheduled_split hsch
      rw [if_neg (by simp [h1]), if_pos h2, if_pos hsch, List.map_cons]
      exact congrArg _ ih
    · have hs0 : cellScheduled c = false := by simpa using hsch
      rcases not_scheduled_split hs0 with h | ⟨h1, h2⟩
      · rw [if_pos h, if_neg (by simp [hs0])]
        exact ih
      · rw [if_neg (by simp [h1]), if_neg (by simp [h2]), if_neg (by simp [hs0])]
        exact ih

theorem salariedOutputs_length (s : ℚ) (week : List DayCell) :
    (salariedOutputs s week).length = working_days week := by
  rw [salariedOutputs_eq_map, List.length_map, working_days]

theorem salariedOutputs_cost (s : ℚ) (week : List DayCell) :
    ∀ o ∈ salariedOutputs s week, o.1.cost = s ∧ o.2.dCost = s := by
  intro o ho
  simp only [salariedOutputs, List.mem_filterMap] at ho
  obtain ⟨c, _, hc⟩ := ho
  by_cases h1 : c.closed
  · rw [if_pos h1] at hc
    exact absurd hc Option.noConfusion
  · rw [if_neg h1] at hc
    by_cases h2 : (!c.shift.isEmpty && !(c.shift == CLOSED)) = true
    · rw [if_pos h2] at hc
      obtain rfl := Option.some.inj hc
      exact ⟨rfl, rfl⟩
    · rw [if_neg h2] at hc
      exact absurd hc Option.noConfusion

/-! ## Claim theorems: hourly invariants (C3, C4, C5) -/

/-- C3: for every hourly employee, after one allocation pass the regular
hours summed over the week are at most 40, the overtime hours sum to
max(0, weeklyHours - 40), and regular plus overtime hours equal the parsed
weekly hours exactly. -/
theorem hourly_split_invariant (rate : ℚ) (week : List DayCell) :
    ((employeeOutputs .Hourly rate week).map fun o => o.2.dReg).sum ≤ 40 ∧
    ((employeeOutputs .Hourly rate week).map fun o => o.2.dOt).sum =
      max 0 ((firstPass week).weekly_hours - 40) ∧
    ((employeeOutputs .Hourly rate week).map fun o => o.2.dReg).sum +
      ((employeeOutputs .Hourly rate week).map fun o => o.2.dOt).sum =
      (firstPass week).weekly_hours := by
  have hW : (firstPass week).weekly_hours = ((shiftsOf week).map fun s => s.2).sum :=
    firstPass_hours week
  simp only [employeeOutputs]
  by_cases h40 : 40 < (firstPass week).weekly_hours
  · rw [if_pos h40]
    set sorted := List.insertionSort (fun a b => a.1 ≤ b.1) (firstPass week).weekly_shifts with hsorted
    have hperm : sorted.Perm (shiftsOf week) := by
      rw [hsorted, firstPass_shifts]
      exact List.perm_insertionSort _ _
    have hsum : (sorted.map fun s => s.2).sum = ((shiftsOf week).map fun s => s.2).sum :=
      (hperm.map fun s => s.2).sum_eq
    have hpos : ∀ s ∈ sorted, 0 ≤ s.2 := by
      intro s hs
      exact le_of_lt (shiftsOf_pos week s (hperm.mem_iff.mp hs))
    have hreg : ((otOutputs rate (firstPass week)).map fun o => o.2.dReg).sum =
        ((assignHours sorted 40).map fun a => a.reg).sum := by
      simp [otOutputs, List.map_map, Function.comp_def]
    have hot : ((otOutputs rate (firstPass week)).map fun o => o.2.dOt).sum =
        ((assignHours sorted 40).map fun a => a.ot).sum := by
      simp [otOutputs, List.map_map, Function.comp_def]
    rw [hreg, hot, assignHours_reg_sum sorted 40 (by norm_num) hpos, hsum, ← hW]
    have hmin : min ((firstPass week).weekly_hours) 40 = 40 := min_eq_right (le_of_lt h40)
    have hsplit := assignHours_sum_split sorted 40
    rw [assignHours_reg_sum sorted 40 (by norm_num) hpos, hsum, ← hW, hmin] at hsplit
    rw [hmin]
    refine ⟨le_rfl, ?_, ?_⟩
    · rw [max_eq_right (by linarith)]
      linarith
    · linarith
  · rw [if_neg h40]
    have hreg : ((noOtOutputs rate week).map fun o => o.2.dReg).sum =
        ((shiftsOf week).map fun s => s.2).sum := by
      have := congrArg (fun l => (l.map fun e => e.dReg).sum) (noOtOutputs_deltas rate week)
      simpa [List.map_map, Function.comp_def] using this
    have hot : ((noOtOutputs rate week).map fun o => o.2.dOt).sum = 0 := by
      have := congrArg (fun l => (l.map fun e => e.dOt).sum) (noOtOutputs_deltas rate week)
      simp only [List.map_map, Function.comp_def] at this
      rw [this]
      simp
    rw [hreg, hot, ← hW]
    refine ⟨not_lt.mp h40, ?_, by ring⟩
    rw [max_eq_left (by linarith [not_lt.mp h40])]

/-- C4: for an hourly employee over 40 weekly hours, shifts are consumed in
date order against a regular budget of 40: the i-th shift's regular portion is
the part of its hours fitting in what the earlier shifts left of the budget,
the rest is overtime, the cost pays the regular portion at pay_rate and the
overtime portion at pay_rate * 1.5, and the overtime flag is set exactly when
the overtime portion is positive. -/
theorem overtime_closed_form (rate : ℚ) (week : List DayCell)
    (hsorted : List.Sorted (fun a b : ℕ × ℚ => a.1 ≤ b.1) (shiftsOf week))
    (h40 : 40 < (firstPass week).weekly_hours) :
    ∀ (i d : ℕ) (h : ℚ), (shiftsOf week)[i]? = some (d, h) →
      (employeeOutputs .Hourly rate week)[i]? =
        some
          (⟨d, (firstPass week).last_start, (firstPass week).last_end, h,
            min h (max (40 - prefixHours (shiftsOf week) i) 0) * rate +
              (h - min h (max (40 - prefixHours (shiftsOf week) i) 0)) * rate * 1.5,
            decide (0 < h - min h (max (40 - prefixHours (shiftsOf week) i) 0))⟩,
           ⟨d, h, min h (max (40 - prefixHours (shiftsOf week) i) 0),
            h - min h (max (40 - prefixHours (shiftsOf week) i) 0),
            min h (max (40 - prefixHours (shiftsOf week) i) 0) * rate +
              (h - min h (max (40 - prefixHours (shiftsOf week) i) 0)) * rate * 1.5⟩) := by
  intro i d h hi
  simp only [employeeOutputs, if_pos h40, otOutputs]
  rw [firstPass_shifts, List.Sorted.insertionSort_eq hsorted, List.getElem?_map,
    assignHours_getElem (shiftsOf week) 40 (by norm_num)
      (fun s hs => le_of_lt (shiftsOf_pos week s hs)) i d h hi]
  simp [allocCost]

theorem overtime_closed_form_witness :
    (employeeOutputs .Hourly 10 demoWeek)[4]? =
      some
        (⟨4, (firstPass demoWeek).last_start, (firstPass demoWeek).last_end, 10,
          min 10 (max (40 - prefixHours (shiftsOf demoWeek) 4) 0) * 10 +
            (10 - min 10 (max (40 - prefixHours (shiftsOf demoWeek) 4) 0)) * 10 * 1.5,
          decide (0 < 10 - min 10 (max (40 - prefixHours (shiftsOf demoWeek) 4) 0))⟩,
         ⟨4, 10, min 10 (max (40 - prefixHours (shiftsOf demoWeek) 4) 0),
          10 - min 10 (max (40 - prefixHours (shiftsOf demoWeek) 4) 0),
          min 10 (max (40 - prefixHours (shiftsOf demoWeek) 4) 0) * 10 +
            (10 - min 10 (max (40 - prefixHours (shiftsOf demoWeek) 4) 0)) * 10 * 1.5⟩) :=
  overtime_closed_form 10 demoWeek (by with_unfolding_all decide)
    (by with_unfolding_all decide) 4 4 10 (by with_unfolding_all decide)

theorem shiftsOf_eq_nil (week : List DayCell)
    (hnil : week.filter cellScheduled = []) : shiftsOf week = [] := by
  induction week with
  | nil => rfl
  | cons c rest ih =>
    rw [List.filter_cons] at hnil
    by_cases hs : cellScheduled c = true
    · rw [if_pos hs] at hnil
      exact absurd hnil (List.cons_ne_nil c _)
    · have hs0 : cellScheduled c = false := by simpa using hs
      rw [if_neg (by simp [hs0])] at hnil
      rw [shiftsOf, List.filterMap_cons]
      have : (cellScheduled c && decide (0 < (parse_shift_hours c.shift).hours)) = false := by
        simp [hs0]
      rw [this]
      simpa [shiftsOf] using ih hnil

/-- C5: while processing an hourly employee over 40 weekly hours, every saved
shift cost row carries the start and end times parsed from the LAST scheduled
cell of the first pass (the leaked loop variables), not the times of its own
date. -/
theorem stale_times_reused (rate : ℚ) (week : List DayCell)
    (h40 : 40 < (firstPass week).weekly_hours) :
    ∃ c : DayCell, (week.filter cellScheduled).getLast? = some c ∧
      ∀ o ∈ employeeOutputs .Hourly rate week,
        o.1.start_time = (parse_shift_hours c.shift).start_time ∧
        o.1.end_time = (parse_shift_hours c.shift).end_time := by
  cases hlast : (week.filter cellScheduled).getLast? with
  | none =>
    exfalso
    have hfe : week.filter cellScheduled = [] := by
      cases hfc : week.filter cellScheduled with
      | nil => rfl
      | cons x xs =>
        rw [hfc] at hlast
        simp [List.getLast?] at hlast
    have hhours := firstPass_hours week
    rw [shiftsOf_eq_nil week hfe] at hhours
    simp at hhours
    rw [hhours] at h40
    norm_num at h40
  | some c =>
    refine ⟨c, rfl, ?_⟩
    intro o ho
    have hlastfields := foldl_firstPassStep_last week ⟨0, [], none, none⟩
    rw [hlast] at hlastfields
    obtain ⟨h1, h2⟩ := Prod.mk.inj hlastfields
    simp only [employeeOutputs, if_pos h40, otOutputs, List.mem_map] at ho
    obtain ⟨a, _, rfl⟩ := ho
    exact ⟨h1, h2⟩

theorem stale_times_reused_witness :
    ∃ c : DayCell, (demoWeekStale.filter cellScheduled).getLast? = some c ∧
      ∀ o ∈ employeeOutputs .Hourly 10 demoWeekStale,
        o.1.start_time = (parse_shift_hours c.shift).start_time ∧
        o.1.end_time = (parse_shift_hours c.shift).end_time :=
  stale_times_reused 10 demoWeekStale (by with_unfolding_all decide)

/-! ## Claim theorems: salaried distribution (C2) -/

/-- C2 (amended): workingDays counts the non-closed days on which the
employee's cell holds any nonempty non-CLOSED shift string (regardless of its
parsed duration); when it is zero the employee contributes nothing, otherwise
every such day is charged exactly payRate / workingDays and the week's costs
sum to payRate. -/
theorem salaried_distribution (rate : ℚ) (week : List DayCell) :
    (working_days week = 0 → employeeOutputs .Salaried rate week = []) ∧
    (0 < working_days week →
      (∀ o ∈ employeeOutputs .Salaried rate week,
        o.1.cost = rate / (working_days week : ℚ) ∧
        o.2.dCost = rate / (working_days week : ℚ)) ∧
      (employeeOutputs .Salaried rate week).length = working_days week ∧
      ((employeeOutputs .Salaried rate week).map fun o => o.1.cost).sum = rate) := by
  constructor
  · intro h0
    simp [employeeOutputs, h0]
  · intro hpos
    simp only [employeeOutputs, if_pos hpos]
    refine ⟨fun o ho => salariedOutputs_cost _ week o ho,
      salariedOutputs_length _ week, ?_⟩
    have hne : ((working_days week : ℚ)) ≠ 0 := by
      exact_mod_cast Nat.pos_iff_ne_zero.mp hpos
    rw [List.sum_eq_card_nsmul _ (rate / (working_days week : ℚ)) ?hall]
    · rw [List.length_map, salariedOutputs_length, nsmul_eq_mul, mul_comm,
        div_mul_cancel₀ _ hne]
    case hall =>
      intro x hx
      obtain ⟨o, ho, rfl⟩ := List.mem_map.mp hx
      exact (salariedOutputs_cost _ week o ho).1

/-- C2 counterexample: a cell whose shift string parses to duration zero (no
dash) still counts as a working day and is charged the full salary; under the
claim's definition workingDays would be 0 and nothing would be charged. -/
theorem salaried_zero_duration_charged :
    (parse_shift_hours (("9am").data)).hours = 0 ∧
    ((employeeOutputs .Salaried 700 (mkWeek [(0, false)] [("9am").data])).map
      fun o => o.1.cost) = [700] := by
  with_unfolding_all decide

theorem salaried_distribution_witness :
    0 < working_days demoWeek ∧
    ((employeeOutputs .Salaried 700 demoWeek).map fun o => o.1.cost).sum = 700 :=
  ⟨by with_unfolding_all decide,
   ((salaried_distribution 700 demoWeek).2 (by with_unfolding_all decide)).2.2⟩

/-! ## Claim theorems: the shift parser (C1, C6, C9) -/

/-- C1 (amended): a bare numeric token with value v below 5 is mapped to
v + 12 and a bare token with value at least 5 is kept unchanged; because of
the overnight rule this makes parse("10-6") a 20-hour shift from 10:00:00 to
06:00:00 the next day, and parse("2-10") a 20-hour shift from 14:00:00 to
10:00:00, not 8-hour day shifts. -/
theorem bare_token_rule :
    (∀ (l : List Char) (v : ℚ),
      containsSub2 'a' 'm' (pyLower (pyStrip l)) = false →
      containsSub2 'p' 'm' (pyLower (pyStrip l)) = false →
      pyFloat (pyStrip l) = some v →
      parse_time l = some (if v < 5 then v + 12 else v)) ∧
    parse_shift_hours (("10-6").data) =
      ⟨some (("10:00:00").data), some (("06:00:00").data), 20, false⟩ ∧
    parse_shift_hours (("2-10").data) =
      ⟨some (("14:00:00").data), some (("10:00:00").data), 20, false⟩ := by
  refine ⟨?_, by with_unfolding_all decide, by with_unfolding_all decide⟩
  intro l v ham hpm hv
  simp only [parse_time, ham, hpm, hv]
  simp only [Bool.false_eq_true, if_false]
  congr 1
  split_ifs with h1 h2 h3 h4 <;> first | rfl | linarith

/-- C1 counterexample: parse("10-6") yields a 20-hour shift ending 06:00:00,
not the 8-hour shift ending 18:00:00 that the claim states. -/
theorem ten_six_twenty_hours :
    (parse_shift_hours (("10-6").data)).hours = 20 ∧
    (parse_shift_hours (("10-6").data)).end_time = some (("06:00:00").data) ∧
    ¬((parse_shift_hours (("10-6").data)).hours = 8 ∧
      (parse_shift_hours (("10-6").data)).end_time = some (("18:00:00").data)) := by
  with_unfolding_all decide

theorem bare_token_rule_witness :
    containsSub2 'a' 'm' (pyLower (pyStrip (("10").data))) = false ∧
    parse_time (("10").data) = some 10 := by
  refine ⟨by with_unfolding_all decide, ?_⟩
  have h := bare_token_rule.1 (("10").data) 10 (by with_unfolding_all decide)
    (by with_unfolding_all decide) (by with_unfolding_all decide)
  rw [if_neg (by norm_num)] at h
  exact h

/-- C6: empty input and the CLOSED marker yield the zero shift without a
warning; input without a dash yields the zero shift without a warning; a dash
count other than one, or a token float() cannot parse, yields the zero shift
with a non-fatal warning — the parser never propagates an error. -/
theorem parser_error_recovery :
    (∀ s : List Char, s = [] ∨ s = CLOSED → parse_shift_hours s = ⟨none, none, 0, false⟩) ∧
    (∀ s : List Char, s.contains '-' = false →
      parse_shift_hours s = ⟨none, none, 0, false⟩) ∧
    (∀ s : List Char, s.contains '-' = true → (splitOnChar '-' s).length ≠ 2 →
      parse_shift_hours s = ⟨none, none, 0, true⟩) ∧
    (∀ s a b : List Char, s ≠ [] → s ≠ CLOSED → s.contains '-' = true →
      splitOnChar '-' s = [a, b] →
      parse_time a = none ∨ parse_time b = none →
      parse_shift_hours s = ⟨none, none, 0, true⟩) := by
  refine ⟨?_, ?_, ?_, ?_⟩
  · intro s h
    rw [parse_shift_hours, if_pos h]
  · intro s hnd
    by_cases h0 : s = [] ∨ s = CLOSED
    · rw [parse_shift_hours, if_pos h0]
    · rw [parse_shift_hours, if_neg h0, if_neg (by rw [hnd]; simp)]
  · intro s hd hlen
    have h0 : ¬(s = [] ∨ s = CLOSED) := by
      rintro (rfl | rfl)
      · exact absurd hd (by with_unfolding_all decide)
      · exact absurd hd (by with_unfolding_all decide)
    rw [parse_shift_hours, if_neg h0, if_pos hd]
    rcases hsp : splitOnChar '-' s with _ | ⟨a, _ | ⟨b, _ | ⟨x, rest⟩⟩⟩
    · rfl
    · rfl
    · exact absurd (by rw [hsp]; rfl) hlen
    · rfl
  · intro s a b h1 h2 hd hsp hfail
    rw [parse_shift_hours, if_neg (by rintro (rfl | rfl) <;> simp_all), if_pos hd, hsp]
    simp only [shiftFromTokens]
    rcases hfail with hfa | hfb
    · rw [hfa]
    · rw [hfb]
      cases parse_time a <;> rfl

theorem parser_error_recovery_witness :
    parse_shift_hours (("9-5-3").data) = ⟨none, none, 0, true⟩ :=
  parser_error_recovery.2.2.1 (("9-5-3").data) (by with_unfolding_all decide)
    (by with_unfolding_all decide)

/-- C9 (amended): for token values V at most 12, an am token maps to hour
V mod 12 and a pm token to (V mod 12) + 12; when the computed end hour is at
most the start hour the parser adds 24 to the end hour, takes the duration
from the adjusted value, and stores the end time reduced modulo 24; in
particular parse("9am-5pm") is 09:00:00-17:00:00 for 8 hours and
parse("11pm-7am") is the 8-hour overnight shift ending 07:00:00. -/
theorem ampm_mapping :
    (∀ V : ℕ, V ≤ 12 →
      parse_time (Nat.toDigits 10 V ++ ("am").data) = some ((V % 12 : ℕ) : ℚ) ∧
      parse_time (Nat.toDigits 10 V ++ ("pm").data) = some (((V % 12 : ℕ) : ℚ) + 12)) ∧
    (∀ (s a b : List Char) (sh eh : ℚ),
      ¬(s = [] ∨ s = CLOSED) → s.contains '-' = true →
      splitOnChar '-' s = [a, b] →
      parse_time a = some sh → parse_time b = some eh → eh ≤ sh →
      parse_shift_hours s =
        ⟨some (fmt02 (pyInt sh) ++ hms),
         some (fmt02 (pyInt (pyMod (eh + 24) 24)) ++ hms), eh + 24 - sh, false⟩) ∧
    parse_shift_hours (("9am-5pm").data) =
      ⟨some (("09:00:00").data), some (("17:00:00").data), 8, false⟩ ∧
    parse_shift_hours (("11pm-7am").data) =
      ⟨some (("23:00:00").data), some (("07:00:00").data), 8, false⟩ := by
  refine ⟨?_, ?_, by with_unfolding_all decide, by with_unfolding_all decide⟩
  · intro V hV
    interval_cases V <;>
      exact ⟨by with_unfolding_all decide, by with_unfolding_all decide⟩
  · intro s a b sh eh h0 hd hsp hpa hpb hle
    rw [parse_shift_hours, if_neg h0, if_pos hd, hsp]
    simp only [shiftFromTokens]
    rw [hpa, hpb]
    show (⟨some (fmt02 (pyInt sh) ++ hms),
      some (fmt02 (pyInt (pyMod (if eh ≤ sh then eh + 24 else eh) 24)) ++ hms),
      (if eh ≤ sh then eh + 24 else eh) - sh, false⟩ : ParsedShift) = _
    rw [if_pos hle]

/-- C9 counterexample: the code maps the am token "13" to hour 13, not to
13 mod 12 = 1, so the mod-12 description only holds for values up to 12. -/
theorem thirteen_am_not_mod12 :
    parse_time (("13am").data) = some 13 ∧ (13 : ℕ) % 12 = 1 ∧
    parse_time (("13am").data) ≠ some (((13 % 12 : ℕ) : ℚ)) := by
  with_unfolding_all decide

theorem ampm_mapping_witness :
    (9 : ℕ) ≤ 12 ∧ parse_time (Nat.toDigits 10 9 ++ ("am").data) = some ((9 % 12 : ℕ) : ℚ) :=
  ⟨by norm_num, (ampm_mapping.1 9 (by norm_num)).1⟩

/-! ## Claim theorems: required sales (C7) and the daily invariant (C10) -/

/-- C7: every persisted labor cost row has nonzero total cost and carries
requiredSales = totalCost / (laborGoalPct/100) when the goal percentage is
positive and 0 when it is not (no division by zero); 1000 at 25 percent gives
4000, and a goal of 0 gives 0. -/
theorem required_sales_rule (days : List (ℕ × Bool)) (m : ℕ → Daily) (pct : ℚ) :
    (∀ r ∈ laborRows days m pct,
      r.total_cost ≠ 0 ∧
      r.required_sales = (if 0 < pct then r.total_cost / (pct / 100) else 0) ∧
      (pct ≤ 0 → r.required_sales = 0)) ∧
    requiredSalesCalc 1000 25 = 4000 ∧ requiredSalesCalc 1000 0 = 0 := by
  refine ⟨?_, by norm_num [requiredSalesCalc], by norm_num [requiredSalesCalc]⟩
  intro r hr
  simp only [laborRows, List.mem_filterMap] at hr
  obtain ⟨dc, _, hdc⟩ := hr
  by_cases h : (m dc.1).total_cost = 0
  · rw [if_pos h] at hdc
    exact absurd hdc Option.noConfusion
  · rw [if_neg h] at hdc
    obtain rfl := Option.some.inj hdc
    refine ⟨h, rfl, fun hle => ?_⟩
    simp [requiredSalesCalc, not_lt.mpr hle]

theorem required_sales_rule_witness :
    ((⟨0, 10, 10, 0, 100, 25, 400⟩ : LaborRow) ∈
      laborRows [(0, false)] (fun _ => ⟨10, 10, 0, 100⟩) 25) ∧
    (⟨0, 10, 10, 0, 100, 25, 400⟩ : LaborRow).required_sales =
      (if (0 : ℚ) < 25 then (⟨0, 10, 10, 0, 100, 25, 400⟩ : LaborRow).total_cost / (25 / 100)
       else 0) :=
  ⟨by with_unfolding_all decide,
   ((required_sales_rule [(0, false)] (fun _ => ⟨10, 10, 0, 100⟩) 25).1
     ⟨0, 10, 10, 0, 100, 25, 400⟩ (by with_unfolding_all decide)).2.1⟩

theorem outputs_delta_inv (pt : PayType) (rate : ℚ) (week : List DayCell) :
    ∀ o ∈ employeeOutputs pt rate week, o.2.dHours = o.2.dReg + o.2.dOt := by
  intro o ho
  cases pt with
  | Hourly =>
    simp only [employeeOutputs] at ho
    by_cases h40 : 40 < (firstPass week).weekly_hours
    · rw [if_pos h40] at ho
      simp only [otOutputs, List.mem_map] at ho
      obtain ⟨a, ha, rfl⟩ := ho
      have hsplit := assignHours_reg_add_ot _ _ a ha
      simpa using hsplit.symm
    · rw [if_neg h40] at ho
      simp only [noOtOutputs, List.mem_filterMap] at ho
      obtain ⟨c, _, hc⟩ := ho
      by_cases hcl : c.closed
      · rw [if_pos hcl] at hc
        exact absurd hc Option.noConfusion
      · rw [if_neg hcl] at hc
        by_cases hg : (!c.shift.isEmpty && !(c.shift == CLOSED)) = true
        · rw [if_pos hg] at hc
          by_cases hp : 0 < (parse_shift_hours c.shift).hours
          · rw [if_pos hp] at hc
            obtain rfl := Option.some.inj hc
            simp
          · rw [if_neg hp] at hc
            exact absurd hc Option.noConfusion
        · rw [if_neg hg] at hc
          exact absurd hc Option.noConfusion
  | Salaried =>
    simp only [employeeOutputs] at ho
    by_cases hw : 0 < working_days week
    · rw [if_pos hw] at ho
      rw [salariedOutputs_eq_map] at ho
      simp only [List.mem_map] at ho
      obtain ⟨c, _, rfl⟩ := ho
      simp
    · rw [if_neg hw] at ho
      exact absurd ho (List.not_mem_nil o)

theorem applyDelta_inv (m : ℕ → Daily) (e : Delta) (hm : DailyInv m)
    (he : e.dHours = e.dReg + e.dOt) : DailyInv (applyDelta m e) := by
  intro d
  simp only [applyDelta]
  by_cases hd : d = e.date
  · rw [if_pos hd]
    show (m d).total_hours + e.dHours =
      (m d).regular_hours + e.dReg + ((m d).overtime_hours + e.dOt)
    have := hm d
    linarith
  · rw [if_neg hd]
    exact hm d

theorem foldl_applyDelta_inv (ds : List Delta) (m : ℕ → Daily) (hm : DailyInv m)
    (hds : ∀ e ∈ ds, e.dHours = e.dReg + e.dOt) : DailyInv (ds.foldl applyDelta m) := by
  induction ds generalizing m with
  | nil => exact hm
  | cons e rest ih =>
    exact ih (applyDelta m e) (applyDelta_inv m e hm (hds e (by simp)))
      (fun x hx => hds x (by simp [hx]))

/-- C10: every daily aggregate built by the allocation pass satisfies
totalHours = regularHours + overtimeHours, at every date, and therefore every
persisted labor cost row satisfies the same equality. -/
theorem daily_totals_consistent (days : List (ℕ × Bool))
    (staff : List (Employee × List (List Char))) (pct : ℚ) :
    (∀ d, (dailyLabor days staff d).total_hours =
      (dailyLabor days staff d).regular_hours + (dailyLabor days staff d).overtime_hours) ∧
    ∀ r ∈ laborRows days (dailyLabor days staff) pct,
      r.total_hours = r.regular_hours + r.overtime_hours := by
  have hinv : DailyInv (dailyLabor days staff) := by
    refine foldl_applyDelta_inv _ _ (fun d => by simp [zeroDaily]) ?_
    intro e he
    simp only [allDeltas, List.mem_flatMap] at he
    obtain ⟨es, _, he2⟩ := he
    simp only [List.mem_map] at he2
    obtain ⟨o, ho, rfl⟩ := he2
    exact outputs_delta_inv _ _ _ o ho
  refine ⟨hinv, ?_⟩
  intro r hr
  simp only [laborRows, List.mem_filterMap] at hr
  obtain ⟨dc, _, hdc⟩ := hr
  by_cases h : (dailyLabor days staff dc.1).total_cost = 0
  · rw [if_pos h] at hdc
    exact absurd hdc Option.noConfusion
  · rw [if_neg h] at hdc
    obtain rfl := Option.some.inj hdc
    exact hinv dc.1

theorem daily_totals_consistent_witness :
    ((⟨4, 10, 0, 10, 150, 25, 600⟩ : LaborRow) ∈
      laborRows demoDays (dailyLabor demoDays demoStaff) 25) ∧
    (⟨4, 10, 0, 10, 150, 25, 600⟩ : LaborRow).total_hours =
      (⟨4, 10, 0, 10, 150, 25, 600⟩ : LaborRow).regular_hours +
        (⟨4, 10, 0, 10, 150, 25, 600⟩ : LaborRow).overtime_hours :=
  ⟨by with_unfolding_all decide,
   (daily_totals_consistent demoDays demoStaff 25).2 ⟨4, 10, 0, 10, 150, 25, 600⟩
     (by with_unfolding_all decide)⟩

/-! ## Idempotence of the upsert-based persistence (C8) -/

theorem replaceFirst_map_fst {α β : Type} [DecidableEq α] (db : List (α × β)) (k : α) (v : β)
    (h : db.any (fun r => r.1 = k) = true) :
    (replaceFirst db k v).map Prod.fst = db.map Prod.fst := by
  induction db with
  | nil => simp at h
  | cons r rest ih =>
    simp only [replaceFirst]
    by_cases hk : r.1 = k
    · rw [if_pos hk]
      simp [hk]
    · rw [if_neg hk]
      simp only [List.map_cons]
      rw [ih (by simpa [List.any_cons, hk] using h)]

theorem upsertRow_map_fst_nodup {α β : Type} [DecidableEq α] (db : List (α × β)) (k : α)
    (v : β) (hnd : (db.map Prod.fst).Nodup) : ((upsertRow db k v).map Prod.fst).Nodup := by
  unfold upsertRow
  by_cases h : db.any (fun r => r.1 = k) = true
  · rw [if_pos h, replaceFirst_map_fst db k v h]
    exact hnd
  · rw [if_neg h, List.map_append]
    rw [List.nodup_append]
    refine ⟨hnd, by simp, ?_⟩
    intro x hx
    simp only [List.map_cons, List.map_nil, List.mem_singleton]
    intro hxk
    subst hxk
    apply h
    obtain ⟨r, hr, hrk⟩ := List.mem_map.mp hx
    simp only [List.any_eq_true]
    exact ⟨r, hr, by simp [hrk]⟩

theorem mem_replaceFirst_self {α β : Type} [DecidableEq α] (db : List (α × β)) (k : α)
    (v : β) (h : db.any (fun r => r.1 = k) = true) : (k, v) ∈ replaceFirst db k v := by
  induction db with
  | nil => simp at h
  | cons r rest ih =>
    simp only [replaceFirst]
    by_cases hk : r.1 = k
    · rw [if_pos hk]
      exact List.mem_cons_self _ _
    · rw [if_neg hk]
      exact List.mem_cons_of_mem _ (ih (by simpa [List.any_cons, hk] using h))

theorem mem_upsertRow_self {α β : Type} [DecidableEq α] (db : List (α × β)) (k : α) (v : β) :
    (k, v) ∈ upsertRow db k v := by
  unfold upsertRow
  by_cases h : db.any (fun r => r.1 = k) = true
  · rw [if_pos h]
    exact mem_replaceFirst_self db k v h
  · rw [if_neg h]
    exact List.mem_append_right _ (by simp)

theorem mem_replaceFirst_of_ne {α β : Type} [DecidableEq α] (db : List (α × β)) (k : α)
    (v : β) (p : α × β) (hp : p ∈ db) (hne : p.1 ≠ k) : p ∈ replaceFirst db k v := by
  induction db with
  | nil => simp at hp
  | cons r rest ih =>
    simp only [replaceFirst]
    by_cases hk : r.1 = k
    · rw [if_pos hk]
      rcases List.mem_cons.mp hp with rfl | hp2
      · exact absurd hk hne
      · exact List.mem_cons_of_mem _ hp2
    · rw [if_neg hk]
      rcases List.mem_cons.mp hp with rfl | hp2
      · exact List.mem_cons_self _ _
      · exact List.mem_cons_of_mem _ (ih hp2)

theorem mem_upsertRow_of_ne {α β : Type} [DecidableEq α] (db : List (α × β)) (k : α)
    (v : β) (p : α × β) (hp : p ∈ db) (hne : p.1 ≠ k) : p ∈ upsertRow db k v := by
  unfold upsertRow
  by_cases h : db.any (fun r => r.1 = k) = true
  · rw [if_pos h]
    exact mem_replaceFirst_of_ne db k v p hp hne
  · rw [if_neg h]
    exact List.mem_append_left _ hp

theorem replaceFirst_eq_self {α β : Type} [DecidableEq α] (k : α) (v : β) :
    ∀ db : List (α × β), (db.map Prod.fst).Nodup → (k, v) ∈ db →
      replaceFirst db k v = db := by
  intro db
  induction db with
  | nil =>
    intro _ hmem
    simp at hmem
  | cons r rest ih =>
    intro hnd hmem
    simp only [List.map_cons, List.nodup_cons] at hnd
    simp only [replaceFirst]
    by_cases hk : r.1 = k
    · rw [if_pos hk]
      rcases List.mem_cons.mp hmem with heq | hmem2
      · rw [heq]
      · exfalso
        apply hnd.1
        rw [hk]
        exact List.mem_map.mpr ⟨(k, v), hmem2, rfl⟩
    · rw [if_neg hk]
      rcases List.mem_cons.mp hmem with heq | hmem2
      · exact absurd (congrArg Prod.fst heq).symm hk
      · rw [ih hnd.2 hmem2]

theorem upsertRow_eq_self {α β : Type} [DecidableEq α] (db : List (α × β)) (k : α) (v : β)
    (hnd : (db.map Prod.fst).Nodup) (hmem : (k, v) ∈ db) : upsertRow db k v = db := by
  unfold upsertRow
  have hany : db.any (fun r => r.1 = k) = true := by
    simp only [List.any_eq_true]
    exact ⟨(k, v), hmem, by simp⟩
  rw [if_pos hany]
  exact replaceFirst_eq_self k v db hnd hmem

theorem applySaves_nodup {α β : Type} [DecidableEq α] (es : List (α × β)) :
    ∀ db : List (α × β), (db.map Prod.fst).Nodup →
      ((applySaves db es).map Prod.fst).Nodup := by
  induction es with
  | nil =>
    intro db hnd
    exact hnd
  | cons e rest ih =>
    intro db hnd
    rw [applySaves, List.foldl_cons]
    exact ih _ (upsertRow_map_fst_nodup db e.1 e.2 hnd)

theorem mem_applySaves_of_not_key {α β : Type} [DecidableEq α] (es : List (α × β)) :
    ∀ (db : List (α × β)) (p : α × β), p ∈ db → p.1 ∉ es.map Prod.fst →
      p ∈ applySaves db es := by
  induction es with
  | nil =>
    intro db p hp _
    exact hp
  | cons e rest ih =>
    intro db p hp hk
    rw [applySaves, List.foldl_cons]
    simp only [List.map_cons, List.mem_cons, not_or] at hk
    exact ih _ p (mem_upsertRow_of_ne db e.1 e.2 p hp hk.1) hk.2

theorem mem_applySaves {α β : Type} [DecidableEq α] (es : List (α × β)) :
    ∀ db : List (α × β), (es.map Prod.fst).Nodup → ∀ p ∈ es, p ∈ applySaves db es := by
  induction es with
  | nil =>
    intro db _ p hp
    simp at hp
  | cons e rest ih =>
    intro db hkeys p hp
    simp only [List.map_cons, List.nodup_cons] at hkeys
    rw [applySaves, List.foldl_cons]
    rcases List.mem_cons.mp hp with rfl | hp2
    · refine mem_applySaves_of_not_key rest _ p ?_ hkeys.1
      have := mem_upsertRow_self db p.1 p.2
      simpa using this
    · exact ih _ hkeys.2 p hp2

theorem applySaves_fix {α β : Type} [DecidableEq α] (es : List (α × β)) :
    ∀ D : List (α × β), (D.map Prod.fst).Nodup → (∀ p ∈ es, p ∈ D) →
      applySaves D es = D := by
  induction es with
  | nil =>
    intro D _ _
    rfl
  | cons e rest ih =>
    intro D hnd hmem
    rw [applySaves, List.foldl_cons]
    have he : upsertRow D e.1 e.2 = D := by
      refine upsertRow_eq_self D e.1 e.2 hnd ?_
      have := hmem e (List.mem_cons_self _ _)
      simpa using this
    rw [he]
    exact ih D hnd fun p hp => hmem p (List.mem_cons_of_mem _ hp)

/-- Applying the same list of keyed saves twice leaves the table exactly as
after the first application, provided no key is saved twice in one pass and
the table starts with unique keys. -/
theorem applySaves_idempotent {α β : Type} [DecidableEq α] (db es : List (α × β))
    (hdb : (db.map Prod.fst).Nodup) (hes : (es.map Prod.fst).Nodup) :
    applySaves (applySaves db es) es = applySaves db es :=
  applySaves_fix es (applySaves db es) (applySaves_nodup es db hdb)
    (mem_applySaves es db hes)

theorem shiftsOf_dates_sublist (week : List DayCell) :
    ((shiftsOf week).map Prod.fst).Sublist (week.map fun c => c.date) := by
  induction week with
  | nil => simp [shiftsOf]
  | cons c rest ih =>
    rw [shiftsOf, List.filterMap_cons]
    by_cases h : (cellScheduled c && decide (0 < (parse_shift_hours c.shift).hours)) = true
    · rw [if_pos h]
      simp only [List.map_cons]
      exact List.Sublist.cons₂ _ ih
    · rw [if_neg h]
      simp only [List.map_cons]
      exact ih.cons _

theorem noOtOutputs_dates (rate : ℚ) (week : List DayCell) :
    (noOtOutputs rate week).map (fun o => o.1.date) = (shiftsOf week).map Prod.fst := by
  unfold noOtOutputs shiftsOf
  rw [List.map_filterMap, List.map_filterMap]
  refine filterMap_ext _ _ week fun c => ?_
  by_cases hsch : cellScheduled c = true
  · obtain ⟨h1, h2⟩ := scheduled_split hsch
    by_cases hp : 0 < (parse_shift_hours c.shift).hours
    · simp [h1, h2, hp, hsch]
    · simp [h1, h2, hp, hsch]
  · have hs0 : cellScheduled c = false := by simpa using hsch
    rcases not_scheduled_split hs0 with h | ⟨h1, h2⟩
    · simp [h, hs0]
    · simp [h1, h2, hs0]

theorem mkWeek_dates_sublist (days : List (ℕ × Bool)) (shifts : List (List Char)) :
    ((mkWeek days shifts).map fun c => c.date).Sublist (days.map Prod.fst) := by
  induction days generalizing shifts with
  | nil => simp [mkWeek]
  | cons dd rest ih =>
    cases shifts with
    | nil => simp [mkWeek]
    | cons s ss =>
      simp only [mkWeek, List.zipWith_cons_cons, List.map_cons]
      exact List.Sublist.cons₂ _ (ih ss)

/-- Within one pass, no employee has two saved shift cost rows on the same
date: the dates of the rows are pairwise distinct. -/
theorem outputs_dates_nodup (pt : PayType) (rate : ℚ) (week : List DayCell)
    (hnd : (week.map fun c => c.date).Nodup) :
    ((employeeOutputs pt rate week).map fun o => o.1.date).Nodup := by
  have hshifts : ((shiftsOf week).map Prod.fst).Nodup :=
    (shiftsOf_dates_sublist week).nodup hnd
  cases pt with
  | Hourly =>
    simp only [employeeOutputs]
    by_cases h40 : 40 < (firstPass week).weekly_hours
    · rw [if_pos h40]
      set sorted := List.insertionSort (fun a b : ℕ × ℚ => a.1 ≤ b.1)
        (firstPass week).weekly_shifts with hs
      have hperm : sorted.Perm (shiftsOf week) := by
        rw [hs, firstPass_shifts]
        exact List.perm_insertionSort _ _
      have h1 : ((otOutputs rate (firstPass week)).map fun o => o.1.date) =
          (assignHours sorted 40).map fun a => a.date := by
        simp [otOutputs, List.map_map, Function.comp_def]
      have h2 : ((assignHours sorted 40).map fun a => a.date) = sorted.map Prod.fst := by
        have := congrArg (List.map Prod.fst) (assignHours_map_date_hours sorted 40)
        simpa [List.map_map, Function.comp_def] using this
      rw [h1, h2]
      exact ((hperm.map Prod.fst).nodup_iff).mpr hshifts
    · rw [if_neg h40, noOtOutputs_dates]
      exact hshifts
  | Salaried =>
    simp only [employeeOutputs]
    by_cases hw : 0 < working_days week
    · rw [if_pos hw, salariedOutputs_eq_map]
      simp only [List.map_map, Function.comp_def]
      exact ((List.filter_sublist week).map fun c => c.date).nodup hnd
    · rw [if_neg hw]
      simp

theorem allSaves_key_employee (days : List (ℕ × Bool))
    (staff : List (Employee × List (List Char))) (p : ℕ × ℕ)
    (hp : p ∈ (allSaves days staff).map Prod.fst) :
    p.1 ∈ staff.map fun es => es.1.id := by
  simp only [allSaves, List.map_flatMap] at hp
  obtain ⟨es, hes, hmem⟩ := List.mem_flatMap.mp hp
  simp only [List.map_map, Function.comp_def, List.mem_map] at hmem
  obtain ⟨o, _, rfl⟩ := hmem
  exact List.mem_map.mpr ⟨es, hes, rfl⟩

theorem allSaves_keys_nodup (days : List (ℕ × Bool))
    (staff : List (Employee × List (List Char)))
    (hids : (staff.map fun es => es.1.id).Nodup)
    (hdates : (days.map Prod.fst).Nodup) :
    ((allSaves days staff).map Prod.fst).Nodup := by
  induction staff with
  | nil => simp [allSaves]
  | cons es rest ih =>
    simp only [List.map_cons, List.nodup_cons] at hids
    rw [allSaves, List.flatMap_cons, List.map_append]
    rw [List.nodup_append]
    refine ⟨?_, ?_, ?_⟩
    · have h1 : (((employeeOutputs es.1.pay_type es.1.pay_rate (mkWeek days es.2)).map fun o =>
          ((es.1.id, o.1.date), o.1)).map Prod.fst) =
          (((employeeOutputs es.1.pay_type es.1.pay_rate (mkWeek days es.2)).map fun o =>
            o.1.date).map fun d => (es.1.id, d)) := by
        simp [List.map_map, Function.comp_def]
      rw [h1]
      refine List.Nodup.map (fun d1 d2 h => ?_) ?_
      · exact (Prod.mk.inj h).2
      · exact outputs_dates_nodup _ _ _ ((mkWeek_dates_sublist days es.2).nodup hdates)
    · exact ih hids.2
    · intro x hx
      intro hx2
      have h1 : x.1 = es.1.id := by
        simp only [List.map_map, Function.comp_def, List.mem_map] at hx
        obtain ⟨o, _, rfl⟩ := hx
        rfl
      have h2 : x.1 ∈ rest.map fun es => es.1.id :=
        allSaves_key_employee days rest x hx2
      rw [h1] at h2
      exact hids.1 h2

theorem laborRows_dates_sublist (days : List (ℕ × Bool)) (m : ℕ → Daily) (pct : ℚ) :
    ((laborRows days m pct).map fun r => r.date).Sublist (days.map Prod.fst) := by
  induction days with
  | nil => simp [laborRows]
  | cons dc rest ih =>
    rw [laborRows, List.filterMap_cons]
    by_cases h : (m dc.1).total_cost = 0
    · rw [if_pos h]
      simp only [List.map_cons]
      exact ih.cons _
    · rw [if_neg h]
      simp only [List.map_cons]
      exact List.Sublist.cons₂ _ ih

theorem allLaborSaves_keys_nodup (days : List (ℕ × Bool))
    (staff : List (Employee × List (List Char))) (pct : ℚ)
    (hdates : (days.map Prod.fst).Nodup) :
    ((allLaborSaves days staff pct).map Prod.fst).Nodup := by
  rw [allLaborSaves]
  simp only [List.map_map, Function.comp_def]
  exact (laborRows_dates_sublist days (dailyLabor days staff) pct).nodup hdates

/-- C8: re-running the calculation with the same inputs is idempotent — the
second pass upserts exactly the rows the first pass left, keyed by
(employeeId, date) in the schedules table and by date in the labor costs
table, so the tables after the second pass equal the tables after the first;
no duplicate rows accumulate. -/
theorem allocate_idempotent (days : List (ℕ × Bool))
    (staff : List (Employee × List (List Char))) (pct : ℚ)
    (dbS : List ((ℕ × ℕ) × ShiftCost)) (dbL : List (ℕ × LaborRow))
    (hids : (staff.map fun es => es.1.id).Nodup)
    (hdates : (days.map Prod.fst).Nodup)
    (hdbS : (dbS.map Prod.fst).Nodup) (hdbL : (dbL.map Prod.fst).Nodup) :
    applySaves (applySaves dbS (allSaves days staff)) (allSaves days staff) =
      applySaves dbS (allSaves days staff) ∧
    applySaves (applySaves dbL (allLaborSaves days staff pct)) (allLaborSaves days staff pct) =
      applySaves dbL (allLaborSaves days staff pct) :=
  ⟨applySaves_idempotent dbS _ hdbS (allSaves_keys_nodup days staff hids hdates),
   applySaves_idempotent dbL _ hdbL (allLaborSaves_keys_nodup days staff pct hdates)⟩

theorem allocate_idempotent_witness :
    applySaves (applySaves ([] : List ((ℕ × ℕ) × ShiftCost)) (allSaves demoDays demoStaff))
        (allSaves demoDays demoStaff) =
      applySaves [] (allSaves demoDays demoStaff) :=
  (allocate_idempotent demoDays demoStaff 25 [] [] (by with_unfolding_all decide)
    (by with_unfolding_all decide) (by with_unfolding_all decide)
    (by with_unfolding_all decide)).1

end Restaurant
